import Mathlib

/-!
Verification of the omnichat session-reconciliation core against its
natural-language specification.

The embedding translates the TypeScript source directly:

* `LogItem` mirrors the `LogItem` interface shared by `Sidebar.tsx`
  (src/unnamed/part_003) and `app/page.tsx`.  `createdAt` is declared in the
  data model as an ISO-8601 *sortable* timestamp string; both string
  comparison (used for `latestDate` in the grouping pass) and
  `new Date(...).getTime()` comparison (used by the sort comparators) order
  such strings exactly like the instants they denote, so `createdAt` is
  modelled as a `Nat`.
* JavaScript `Array.prototype.sort` is stable (ES2019); it is modelled by the
  structurally recursive stable insertion sort `sortBy` below, which computes
  the same output as any stable sort under a total `≤`-style comparator.
* `sessionId` is `string | null | undefined` in the source; it is modelled as
  `Option String`.  The source tests it with JavaScript *truthiness*
  (`if (log.sessionId)`), under which the empty string is falsy; `hasSid`
  models that test.
-/

/-- One persisted question/answer exchange (the `LogItem` interface of
`Sidebar.tsx` / `page.tsx`; `LogRecord` in the specification). -/
structure LogItem where
  sessionId : Option String
  question : String
  answer : String
  model : String
  createdAt : Nat
deriving DecidableEq, Repr, Inhabited

/-- One entry of the `conversations` result array built in `Sidebar.tsx`
(`ConversationSummary` in the specification): `date` is `latestTimestamp`,
`msgCount` is `messageCount`, `allLogs` is `orderedRecords`. -/
structure Conversation where
  key : String
  sessionId : Option String
  title : String
  date : Nat
  model : String
  msgCount : Nat
  allLogs : List LogItem
deriving DecidableEq, Repr, Inhabited

/-- Insert `x` into a sorted list, before the first element `y` with
`le x y`; used by `sortBy`. -/
def insertSorted (le : α → α → Bool) (x : α) : List α → List α
  | [] => [x]
  | y :: ys => if le x y then x :: y :: ys else y :: insertSorted le x ys

/-- Stable sort (insertion sort).  For a total comparator this computes the
unique stable ordering, hence the same output as JavaScript's stable
`Array.prototype.sort`. -/
def sortBy (le : α → α → Bool) : List α → List α
  | [] => []
  | x :: xs => insertSorted le x (sortBy le xs)

theorem length_insertSorted (le : α → α → Bool) (x : α) (l : List α) :
    (insertSorted le x l).length = l.length + 1 := by
  induction l with
  | nil => rfl
  | cons y ys ih => by_cases h : le x y <;> simp [insertSorted, h, ih]

theorem length_sortBy (le : α → α → Bool) (l : List α) :
    (sortBy le l).length = l.length := by
  induction l with
  | nil => rfl
  | cons x xs ih => simp [sortBy, length_insertSorted, ih]

theorem mem_insertSorted (le : α → α → Bool) (x y : α) (l : List α) :
    y ∈ insertSorted le x l ↔ y = x ∨ y ∈ l := by
  induction l with
  | nil => simp [insertSorted]
  | cons z zs ih =>
    by_cases h : le x z
    · simp only [insertSorted, h, if_true, List.mem_cons]
    · simp only [insertSorted, h, if_false, Bool.false_eq_true, List.mem_cons, ih]
      tauto

theorem mem_sortBy (le : α → α → Bool) (y : α) (l : List α) :
    y ∈ sortBy le l ↔ y ∈ l := by
  induction l with
  | nil => simp [sortBy]
  | cons x xs ih => simp [sortBy, mem_insertSorted, ih]

/-- JavaScript truthiness of the optional `sessionId`
(`if (log.sessionId)` in `Sidebar.tsx`): `null`/`undefined` and the empty
string are falsy. -/
def hasSid : Option String → Bool
  | some s => s ≠ ""
  | none => false

/-- Value type of the `grouped` map in the `conversations` pass of
`Sidebar.tsx`. -/
structure GroupAcc where
  logs : List LogItem
  firstQuestion : String
  latestDate : Nat
deriving DecidableEq, Repr, Inhabited

/-- Updating the insertion-ordered `grouped` map of `Sidebar.tsx` at key `s`
with a new record: push the record and raise `latestDate` when the new
`createdAt` is larger (or `latestDate` was falsy), or append a fresh entry
when the key is absent.  The `Map` is modelled as an association list in
insertion order. -/
def updateGroup (s : String) (log : LogItem) :
    List (String × GroupAcc) → List (String × GroupAcc)
  | [] => [(s, ⟨[log], log.question, log.createdAt⟩)]
  | (k, acc) :: rest =>
    if k = s then
      (k, ⟨acc.logs ++ [log], acc.firstQuestion,
           if acc.latestDate = 0 ∨ log.createdAt > acc.latestDate then
             log.createdAt
           else acc.latestDate⟩) :: rest
    else (k, acc) :: updateGroup s log rest

/-- One step of the `historyItems.forEach((log, index) => ...)` loop in the
`conversations` pass: truthy `sessionId` records go to the `grouped` map,
the rest are pushed to `ungrouped` with their positional index. -/
def groupStep (st : List (String × GroupAcc) × List (LogItem × Nat))
    (li : Nat × LogItem) :
    List (String × GroupAcc) × List (LogItem × Nat) :=
  match li.2.sessionId with
  | some s =>
    if s = "" then (st.1, st.2 ++ [(li.2, li.1)])
    else (updateGroup s li.2 st.1, st.2)
  | none => (st.1, st.2 ++ [(li.2, li.1)])

/-- The `conversations` grouping pass of `Sidebar.tsx` (lines 214-287):
partition by truthy `sessionId`, build one summary per group (records sorted
ascending by `createdAt`; title from the first, model from the last,
`latestDate` tracked as the running maximum), one singleton summary with key
`legacy-<index>` per record without a truthy `sessionId`, then sort the
concatenation by `date` descending with a stable sort. -/
def conversations (historyItems : List LogItem) : List Conversation :=
  let st := historyItems.enum.foldl groupStep ([], [])
  let groupedResult := st.1.map (fun p =>
    let sorted := sortBy (fun a b => a.createdAt ≤ b.createdAt) p.2.logs
    { key := p.1
      sessionId := some p.1
      title := (sorted.headD default).question
      date := p.2.latestDate
      model := (sorted.getLastD default).model
      msgCount := p.2.logs.length
      allLogs := sorted })
  let legacyResult := st.2.map (fun p =>
    { key := "legacy-" ++ toString p.2
      sessionId := none
      title := p.1.question
      date := p.1.createdAt
      model := p.1.model
      msgCount := 1
      allLogs := [p.1] })
  sortBy (fun a b => b.date ≤ a.date) (groupedResult ++ legacyResult)

/-- Order-preserving removal of duplicates (first occurrence wins); gives the
iteration order of the insertion-ordered `grouped` map. -/
def dedupFirst (l : List String) : List String :=
  l.foldl (fun acc s => if s ∈ acc then acc else acc ++ [s]) []

/-- The `sessionId` of a record when it is truthy, else `none`. -/
def truthySid (r : LogItem) : Option String :=
  match r.sessionId with
  | some s => if s = "" then none else some s
  | none => none

/-- The distinct truthy sessionIds of a record list, in order of first
occurrence. -/
def truthySids (recs : List LogItem) : List String :=
  dedupFirst (recs.filterMap truthySid)

/-- All records carrying exactly the sessionId `s`, in input order
(specification 4.1 step 2, "collect all its records"). -/
def sessionRecords (s : String) (recs : List LogItem) : List LogItem :=
  recs.filter (fun r => decide (r.sessionId = some s))

/-- Maximum `createdAt` over a record list (specification:
"latestTimestamp = max createdAt"). -/
def maxCreatedAt (l : List LogItem) : Nat :=
  l.foldl (fun m r => Nat.max m r.createdAt) 0

/-- Specification 4.1 step 2: the summary of one session — records sorted
ascending by `createdAt`, title from the chronologically first record, model
from the chronologically last, `latestTimestamp` the maximum `createdAt`,
`messageCount` the number of records. -/
def summarize (s : String) (recs : List LogItem) : Conversation :=
  let sorted :=
    sortBy (fun a b => a.createdAt ≤ b.createdAt) (sessionRecords s recs)
  { key := s
    sessionId := some s
    title := (sorted.headD default).question
    date := maxCreatedAt (sessionRecords s recs)
    model := (sorted.getLastD default).model
    msgCount := (sessionRecords s recs).length
    allLogs := sorted }

/-- Specification 4.1 step 3: one singleton summary per legacy record, with
synthetic key `legacy-<positional index in the original fetch>`. -/
def legacySummaryAt (i : Nat) (r : LogItem) : Conversation :=
  { key := "legacy-" ++ toString i
    sessionId := none
    title := r.question
    date := r.createdAt
    model := r.model
    msgCount := 1
    allLogs := [r] }

/-- Specification algorithm 4.1 with the grouping predicate the source
actually uses (truthy `sessionId`): group per distinct truthy sessionId in
first-occurrence order, one legacy singleton per record without a truthy
sessionId, concatenate, stable-sort by `latestTimestamp` descending. -/
def conversationsSpecGrouping (recs : List LogItem) : List Conversation :=
  sortBy (fun a b => b.date ≤ a.date)
    ((truthySids recs).map (fun s => summarize s recs) ++
      (recs.enum.filter (fun p => ¬ hasSid p.2.sessionId)).map
        (fun p => legacySummaryAt p.1 p.2))

/-- The distinct non-null sessionIds of a record list, in order of first
occurrence (the claim's partition predicate: non-null, empty string
included). -/
def nonNullSids (recs : List LogItem) : List String :=
  dedupFirst (recs.filterMap (·.sessionId))

/-- Specification algorithm 4.1 exactly as the claim words it: every
*non-null* sessionId forms a group; only records with a null/absent
sessionId become legacy singletons. -/
def conversationsClaim (recs : List LogItem) : List Conversation :=
  sortBy (fun a b => b.date ≤ a.date)
    ((nonNullSids recs).map (fun s => summarize s recs) ++
      (recs.enum.filter (fun p => p.2.sessionId = none)).map
        (fun p => legacySummaryAt p.1 p.2))

/-- The `grouped` map contents that the forEach loop reaches after consuming
`recs`, expressed extensionally: one entry per distinct truthy sessionId in
first-occurrence order, holding that session's records in input order, the
first record's question, and the maximum `createdAt`. -/
def groupAccOf (s : String) (recs : List LogItem) : GroupAcc :=
  { logs := sessionRecords s recs
    firstQuestion := ((sessionRecords s recs).headD default).question
    latestDate := maxCreatedAt (sessionRecords s recs) }

/-- Extensional description of the `grouped` association list. -/
def groupedOf (recs : List LogItem) : List (String × GroupAcc) :=
  (truthySids recs).map (fun s => (s, groupAccOf s recs))

/-- Extensional description of the `ungrouped` array: the records without a
truthy sessionId, paired with their positional index. -/
def legacyPairs (recs : List LogItem) : List (LogItem × Nat) :=
  (recs.enum.filter (fun p => ¬ hasSid p.2.sessionId)).map
    (fun p => (p.2, p.1))

theorem mem_foldl_dedup (l acc : List String) (x : String) :
    x ∈ l.foldl (fun a s => if s ∈ a then a else a ++ [s]) acc ↔
      x ∈ acc ∨ x ∈ l := by
  induction l generalizing acc with
  | nil => simp
  | cons s rest ih =>
    simp only [List.foldl_cons, ih, List.mem_cons]
    by_cases hs : s ∈ acc
    · simp only [hs, if_true]
      constructor
      · tauto
      · rintro (h | h | h) <;> simp_all
    · simp only [hs, if_false, List.mem_append, List.mem_singleton]
      tauto

theorem mem_dedupFirst (l : List String) (x : String) :
    x ∈ dedupFirst l ↔ x ∈ l := by
  simp [dedupFirst, mem_foldl_dedup]

theorem nodup_foldl_dedup (l : List String) (acc : List String)
    (h : acc.Nodup) :
    (l.foldl (fun a s => if s ∈ a then a else a ++ [s]) acc).Nodup := by
  induction l generalizing acc with
  | nil => simpa
  | cons s rest ih =>
    simp only [List.foldl_cons]
    by_cases hs : s ∈ acc
    · simpa [hs] using ih acc h
    · simp only [hs, if_false]
      exact ih _ (by simp [List.Nodup.append, h, hs, List.nodup_append])

theorem nodup_dedupFirst (l : List String) : (dedupFirst l).Nodup :=
  nodup_foldl_dedup l [] List.nodup_nil

theorem dedupFirst_append_single (l : List String) (s : String) :
    dedupFirst (l ++ [s]) =
      if s ∈ dedupFirst l then dedupFirst l else dedupFirst l ++ [s] := by
  simp [dedupFirst, List.foldl_append]

theorem maxCreatedAt_append_single (l : List LogItem) (x : LogItem) :
    maxCreatedAt (l ++ [x]) = Nat.max (maxCreatedAt l) x.createdAt := by
  simp [maxCreatedAt, List.foldl_append]

theorem sessionRecords_append_single (s : String) (recs : List LogItem)
    (x : LogItem) :
    sessionRecords s (recs ++ [x]) =
      sessionRecords s recs ++ (if x.sessionId = some s then [x] else []) := by
  simp only [sessionRecords, List.filter_append]
  by_cases h : x.sessionId = some s <;> simp [h]

theorem truthySid_eq_some (r : LogItem) (s : String) :
    truthySid r = some s ↔ r.sessionId = some s ∧ s ≠ "" := by
  unfold truthySid
  match h : r.sessionId with
  | none => simp
  | some t =>
    by_cases ht : t = "" <;> simp [ht] <;> intro hh <;> simp_all

theorem mem_truthySids (recs : List LogItem) (s : String) :
    s ∈ truthySids recs ↔ ∃ r ∈ recs, r.sessionId = some s ∧ s ≠ "" := by
  simp [truthySids, mem_dedupFirst, List.mem_filterMap, truthySid_eq_some]

theorem ne_empty_of_mem_truthySids (recs : List LogItem) (s : String)
    (h : s ∈ truthySids recs) : s ≠ "" := by
  rcases (mem_truthySids recs s).1 h with ⟨r, _, _, hne⟩
  exact hne

theorem sessionRecords_ne_nil_of_mem (recs : List LogItem) (s : String)
    (h : s ∈ truthySids recs) : sessionRecords s recs ≠ [] := by
  rcases (mem_truthySids recs s).1 h with ⟨r, hr, hsid, _⟩
  intro hnil
  have : r ∈ sessionRecords s recs := by
    simp [sessionRecords, List.mem_filter, hr, hsid]
  simp [hnil] at this

theorem sessionRecords_eq_nil_of_not_mem (recs : List LogItem) (s : String)
    (hne : s ≠ "") (h : s ∉ truthySids recs) : sessionRecords s recs = [] := by
  rcases hcase : sessionRecords s recs with _ | ⟨r, rest⟩
  · rfl
  · exfalso
    have hr : r ∈ sessionRecords s recs := by simp [hcase]
    simp only [sessionRecords, List.mem_filter, decide_eq_true_eq] at hr
    exact h ((mem_truthySids recs s).2 ⟨r, hr.1, hr.2, hne⟩)

theorem headD_append_left (l l' : List α) (d : α) (h : l ≠ []) :
    (l ++ l').headD d = l.headD d := by
  cases l with
  | nil => simp at h
  | cons a as => rfl

theorem enumFrom_append_single (l : List α) (x : α) (n : Nat) :
    (l ++ [x]).enumFrom n = l.enumFrom n ++ [(n + l.length, x)] := by
  induction l generalizing n with
  | nil => simp
  | cons a as ih =>
    simp only [List.cons_append, List.enumFrom_cons, ih, List.length_cons]
    have harith : n + 1 + as.length = n + (as.length + 1) := by omega
    rw [harith]

theorem enum_append_single (l : List α) (x : α) :
    (l ++ [x]).enum = l.enum ++ [(l.length, x)] := by
  simpa using enumFrom_append_single l x 0


/-- The in-place update the `grouped` map applies to an existing entry. -/
def updAcc (acc : GroupAcc) (x : LogItem) : GroupAcc :=
  { logs := acc.logs ++ [x]
    firstQuestion := acc.firstQuestion
    latestDate :=
      if acc.latestDate = 0 ∨ x.createdAt > acc.latestDate then x.createdAt
      else acc.latestDate }

theorem cond_latest_eq_max (l c : Nat) :
    (if l = 0 ∨ c > l then c else l) = Nat.max l c := by
  have h : Nat.max l c = if l ≤ c then c else l := Nat.max_def
  rw [h]
  split <;> split <;> omega

theorem updateGroup_map_not_mem (s : String) (x : LogItem)
    (L : List String) (g : String → GroupAcc) (h : s ∉ L) :
    updateGroup s x (L.map (fun t => (t, g t))) =
      L.map (fun t => (t, g t)) ++ [(s, ⟨[x], x.question, x.createdAt⟩)] := by
  induction L with
  | nil => rfl
  | cons t ts ih =>
    have hts : t ≠ s := fun he => h (by simp [he])
    have hs' : s ∉ ts := fun he => h (by simp [he])
    simp [updateGroup, hts, ih hs']

theorem updateGroup_map_mem (s : String) (x : LogItem)
    (L : List String) (g : String → GroupAcc) (hnd : L.Nodup) (h : s ∈ L) :
    updateGroup s x (L.map (fun t => (t, g t))) =
      L.map (fun t => (t, if t = s then updAcc (g t) x else g t)) := by
  induction L with
  | nil => simp at h
  | cons t ts ih =>
    rcases List.nodup_cons.1 hnd with ⟨htts, hnd'⟩
    by_cases hts : t = s
    · subst hts
      have htail : ts.map (fun u => (u, if u = t then updAcc (g u) x else g u)) =
          ts.map (fun u => (u, g u)) := by
        apply List.map_congr_left
        intro u hu
        have hut : u ≠ t := fun he => htts (he ▸ hu)
        simp [hut]
      simp only [List.map_cons, updateGroup, if_true, updAcc]
      congr 1
      simpa [updAcc] using htail.symm
    · rcases List.mem_cons.1 h with h' | h'
      · exact absurd h'.symm hts
      · simp [updateGroup, List.map_cons, hts, ih hnd' h']

theorem groupAccOf_append_other (t : String) (recs : List LogItem)
    (x : LogItem) (h : x.sessionId ≠ some t) :
    groupAccOf t (recs ++ [x]) = groupAccOf t recs := by
  simp [groupAccOf, sessionRecords_append_single, h]

theorem groupAccOf_append_new (s : String) (recs : List LogItem)
    (x : LogItem) (hx : x.sessionId = some s)
    (hnil : sessionRecords s recs = []) :
    groupAccOf s (recs ++ [x]) = ⟨[x], x.question, x.createdAt⟩ := by
  simp [groupAccOf, sessionRecords_append_single, hx, hnil, maxCreatedAt]

theorem groupAccOf_append_existing (s : String) (recs : List LogItem)
    (x : LogItem) (hx : x.sessionId = some s)
    (hne : sessionRecords s recs ≠ []) :
    groupAccOf s (recs ++ [x]) = updAcc (groupAccOf s recs) x := by
  unfold groupAccOf updAcc
  simp only [sessionRecords_append_single, hx, if_true, GroupAcc.mk.injEq,
    headD_append_left _ _ _ hne, maxCreatedAt_append_single,
    cond_latest_eq_max]

theorem truthySids_append_none (recs : List LogItem) (x : LogItem)
    (h : truthySid x = none) :
    truthySids (recs ++ [x]) = truthySids recs := by
  simp [truthySids, List.filterMap_append, h]

theorem truthySids_append_some (recs : List LogItem) (x : LogItem)
    (s : String) (h : truthySid x = some s) :
    truthySids (recs ++ [x]) =
      if s ∈ truthySids recs then truthySids recs
      else truthySids recs ++ [s] := by
  simp [truthySids, List.filterMap_append, h, dedupFirst_append_single]

theorem legacyPairs_append_has (recs : List LogItem) (x : LogItem)
    (h : hasSid x.sessionId = true) :
    legacyPairs (recs ++ [x]) = legacyPairs recs := by
  simp [legacyPairs, enum_append_single, List.filter_append, h]

theorem legacyPairs_append_not (recs : List LogItem) (x : LogItem)
    (h : hasSid x.sessionId = false) :
    legacyPairs (recs ++ [x]) = legacyPairs recs ++ [(x, recs.length)] := by
  simp [legacyPairs, enum_append_single, List.filter_append, h]

theorem groupedOf_append_untruthy (recs : List LogItem) (x : LogItem)
    (ht : truthySid x = none) (hs : ∀ t : String, x.sessionId ≠ some t ∨ t = "") :
    groupedOf (recs ++ [x]) = groupedOf recs := by
  unfold groupedOf
  rw [truthySids_append_none recs x ht]
  apply List.map_congr_left
  intro t htm
  have hne : t ≠ "" := ne_empty_of_mem_truthySids recs t htm
  have : x.sessionId ≠ some t := by
    rcases hs t with h | h
    · exact h
    · exact absurd h hne
  rw [groupAccOf_append_other t recs x this]

theorem groupStep_extends (recs : List LogItem) (x : LogItem) :
    groupStep (groupedOf recs, legacyPairs recs) (recs.length, x) =
      (groupedOf (recs ++ [x]), legacyPairs (recs ++ [x])) := by
  match hx : x.sessionId with
  | none =>
    have hfalse : hasSid x.sessionId = false := by simp [hasSid, hx]
    have ht : truthySid x = none := by simp [truthySid, hx]
    have hg := groupedOf_append_untruthy recs x ht (fun t => by simp [hx])
    simp only [groupStep, hx]
    rw [legacyPairs_append_not recs x hfalse, hg]
  | some s =>
    by_cases hs : s = ""
    · subst hs
      have hfalse : hasSid x.sessionId = false := by simp [hasSid, hx]
      have ht : truthySid x = none := by simp [truthySid, hx]
      have hg := groupedOf_append_untruthy recs x ht
        (fun t => by
          by_cases hts : t = ""
          · exact Or.inr hts
          · exact Or.inl (by simp [hx]; exact fun he => hts he.symm))
      simp only [groupStep, hx, if_true]
      rw [legacyPairs_append_not recs x hfalse, hg]
    · have htrue : hasSid x.sessionId = true := by simp [hasSid, hx, hs]
      have ht : truthySid x = some s := by simp [truthySid, hx, hs]
      simp only [groupStep, hx, hs, if_false]
      rw [legacyPairs_append_has recs x htrue]
      have hgrp : updateGroup s x (groupedOf recs) = groupedOf (recs ++ [x]) := by
        by_cases hmem : s ∈ truthySids recs
        · unfold groupedOf
          rw [truthySids_append_some recs x s ht, if_pos hmem]
          rw [updateGroup_map_mem s x (truthySids recs)
            (fun t => groupAccOf t recs) (nodup_dedupFirst _) hmem]
          apply List.map_congr_left
          intro t htm
          by_cases hts : t = s
          · subst hts
            rw [if_pos rfl,
              groupAccOf_append_existing t recs x hx
                (sessionRecords_ne_nil_of_mem recs t htm)]
          · rw [if_neg hts,
              groupAccOf_append_other t recs x
                (by simp [hx]; exact fun he => hts he.symm)]
        · unfold groupedOf
          rw [truthySids_append_some recs x s ht, if_neg hmem]
          rw [updateGroup_map_not_mem s x (truthySids recs)
            (fun t => groupAccOf t recs) hmem]
          rw [List.map_append]
          congr 1
          · apply List.map_congr_left
            intro t htm
            have hts : t ≠ s := fun he => hmem (he ▸ htm)
            rw [groupAccOf_append_other t recs x
              (by simp [hx]; exact fun he => hts he.symm)]
          · rw [List.map_singleton,
              groupAccOf_append_new s recs x hx
                (sessionRecords_eq_nil_of_not_mem recs s hs hmem)]
      rw [hgrp]

theorem foldl_groupStep_eq (recs : List LogItem) :
    recs.enum.foldl groupStep ([], []) = (groupedOf recs, legacyPairs recs) := by
  induction recs using List.reverseRecOn with
  | nil => rfl
  | append_singleton l x ih =>
    rw [enum_append_single, List.foldl_append, ih]
    simpa using groupStep_extends l x

/-- Claim C1 (amended): for every input list of records, the grouping pass of
`Sidebar.tsx` follows the specification algorithm with the partition
predicate "non-null *and non-empty* sessionId": every distinct truthy
sessionId yields exactly one summary whose records are stably sorted
ascending by `createdAt`, whose title/model/latestTimestamp/messageCount are
as specified, every record without a truthy sessionId yields one singleton
summary keyed `legacy-<its positional index in the original fetch>`, and the
concatenation (grouped first, in first-occurrence order) is stably sorted by
`latestTimestamp` descending. -/
theorem conversations_eq_specGrouping (recs : List LogItem) :
    conversations recs = conversationsSpecGrouping recs := by
  simp only [conversations, conversationsSpecGrouping, foldl_groupStep_eq]
  congr 1
  congr 1
  · rw [groupedOf, List.map_map]
    apply List.map_congr_left
    intro s hs
    rfl
  · rw [legacyPairs, List.map_map]
    apply List.map_congr_left
    intro p hp
    rfl

/-- A record whose `sessionId` is present but the empty string: non-null, yet
falsy in JavaScript, so the source routes it to the legacy branch. -/
def emptySidRecord : LogItem :=
  { sessionId := some "", question := "q", answer := "a", model := "m",
    createdAt := 5 }

/-- Counterexample to claim C1 as stated: on a record with `sessionId`
`some ""` (non-null), the source produces a legacy singleton keyed
`legacy-0`, not the session summary keyed `""` that the claim's
"distinct non-null sessionId" algorithm prescribes. -/
theorem conversations_claim_cex :
    conversations [emptySidRecord] ≠ conversationsClaim [emptySidRecord] := by
  decide

theorem legacyPairs_length (recs : List LogItem) :
    (legacyPairs recs).length =
      (recs.filter (fun r => ¬ hasSid r.sessionId)).length := by
  induction recs using List.reverseRecOn with
  | nil => rfl
  | append_singleton l x ih =>
    by_cases h : hasSid x.sessionId
    · rw [legacyPairs_append_has l x h]
      simp [List.filter_append, h, ih]
    · rw [legacyPairs_append_not l x (by simpa using h)]
      simp [List.filter_append, h, ih]

/-- Claim C2 (amended): the number of summaries produced by the grouping pass
equals the number of distinct truthy (non-null, non-empty) sessionIds plus
the number of records without a truthy sessionId. -/
theorem conversations_length_eq (recs : List LogItem) :
    (conversations recs).length =
      (truthySids recs).length +
        (recs.filter (fun r => ¬ hasSid r.sessionId)).length := by
  simp only [conversations, foldl_groupStep_eq]
  rw [length_sortBy, List.length_append, List.length_map, List.length_map,
    legacyPairs_length]
  rw [groupedOf, List.length_map]

/-- The claim's session count: distinct non-null sessionIds (empty string
included). -/
def distinctNonNullCount (recs : List LogItem) : Nat :=
  (nonNullSids recs).length

/-- The claim's legacy count: records with no sessionId at all. -/
def noSidCount (recs : List LogItem) : Nat :=
  (recs.filter (fun r => r.sessionId = none)).length

/-- A second record with empty-string `sessionId`. -/
def emptySidRecord2 : LogItem :=
  { sessionId := some "", question := "q2", answer := "a2", model := "m",
    createdAt := 7 }

/-- Counterexample to claim C2 as stated: two records sharing the non-null
sessionId `""` produce two summaries, while the claim's count
(distinct non-null sessionIds + records with no sessionId) is 1 + 0 = 1. -/
theorem conversations_count_cex :
    (conversations [emptySidRecord, emptySidRecord2]).length ≠
      distinctNonNullCount [emptySidRecord, emptySidRecord2] +
        noSidCount [emptySidRecord, emptySidRecord2] := by
  decide

/-!
The deletion endpoint (`app/api/logs/delete/route.ts`).  The request body's
`sessionIds` field is arbitrary JSON; `JVal` models the JSON values relevant
here and `Option JVal` models presence of the field (`none` = field absent,
the client's encoding of the "all" sentinel).  The MongoDB collection is the
list of stored records; `deleteMany({sessionId: {$in: ids}})` removes the
records whose `sessionId` value is `$in`-equal to a list element (a string
element matches an equal string; a `null` element also matches records whose
`sessionId` field is null or missing; other element types match no
string-or-missing `sessionId`), and `deleteMany({})` removes everything.
-/

/-- A JSON value, as far as the delete/logs endpoints inspect one. -/
inductive JVal where
  | null
  | bool (b : Bool)
  | num (n : Int)
  | str (s : String)
  | arr (elts : List JVal)

/-- MongoDB `$in` matching of a record's `sessionId` (string-valued or
null/missing) against the elements of the request array. -/
def inIds (sid : Option String) : List JVal → Bool
  | [] => false
  | JVal.null :: rest => sid.isNone || inIds sid rest
  | JVal.str t :: rest => decide (sid = some t) || inIds sid rest
  | _ :: rest => inIds sid rest

/-- `POST /api/logs/delete`: when `sessionIds` is a non-empty array, delete
the records matching `{sessionId: {$in: sessionIds}}`; otherwise delete every
record.  Returns the remaining store and the reported `deletedCount`. -/
def deleteRoute (sessionIds : Option JVal) (store : List LogItem) :
    List LogItem × Nat :=
  match sessionIds with
  | some (JVal.arr l) =>
    if l.length > 0 then
      ((store.filter (fun r => ! inIds r.sessionId l)),
        (store.filter (fun r => inIds r.sessionId l)).length)
    else ([], store.length)
  | _ => ([], store.length)

/-- Claim C3: a deletion request carrying an explicit (non-empty) set of
session identifiers — string ids, as the sidebar sends — never removes a
record lacking a `sessionId`; the "all" sentinel (no `sessionIds` field)
removes every record, including the `sessionId`-less ones. -/
theorem delete_spares_legacy (ids : List String) (store : List LogItem)
    (r : LogItem) (hne : ids ≠ []) (hr : r ∈ store)
    (hleg : r.sessionId = none) :
    r ∈ (deleteRoute (some (JVal.arr (ids.map JVal.str))) store).1 ∧
      (deleteRoute none store).1 = [] := by
  constructor
  · have hmatch : ∀ l : List String, inIds (none : Option String) (l.map JVal.str) = false := by
      intro l
      induction l with
      | nil => rfl
      | cons i is ih => simp [inIds, ih]
    have hlen : 0 < ids.length := by
      cases ids with
      | nil => exact absurd rfl hne
      | cons i is => simp
    simp [deleteRoute, hlen, List.mem_filter, hr, hleg, hmatch ids]
  · rfl

/-- A store holding a single legacy (sessionId-less) record. -/
def legacyRecord : LogItem :=
  { sessionId := none, question := "old", answer := "ans", model := "m",
    createdAt := 1 }

/-- Witness for `delete_spares_legacy`: deleting session `"A"` from a store
holding one legacy record keeps that record, while the sentinel empties the
store. -/
theorem delete_spares_legacy_witness :
    legacyRecord ∈
        (deleteRoute (some (JVal.arr (["A"].map JVal.str))) [legacyRecord]).1 ∧
      (deleteRoute none [legacyRecord]).1 = [] :=
  delete_spares_legacy ["A"] [legacyRecord] legacyRecord
    (by decide) (by decide) (by decide)

/-- Claim C5: the set-scoped delete branch runs only for a non-empty array
value of `sessionIds` (`Array.isArray(sessionIds) && sessionIds.length > 0`);
a missing field, an empty array, and every non-array value all take the
delete-everything branch and empty the store. -/
theorem deleteRoute_branching (store : List LogItem) :
    (deleteRoute none store).1 = [] ∧
    (deleteRoute (some (JVal.arr [])) store).1 = [] ∧
    (∀ v : JVal, (∀ l, v ≠ JVal.arr l) → (deleteRoute (some v) store).1 = []) ∧
    (∀ l : List JVal, l ≠ [] →
      deleteRoute (some (JVal.arr l)) store =
        (store.filter (fun r => ! inIds r.sessionId l),
          (store.filter (fun r => inIds r.sessionId l)).length)) := by
  refine ⟨rfl, rfl, ?_, ?_⟩
  · intro v hv
    match v with
    | JVal.null => rfl
    | JVal.bool b => rfl
    | JVal.num n => rfl
    | JVal.str s => rfl
    | JVal.arr l => exact absurd rfl (hv l)
  · intro l hl
    have hp : 0 < l.length := List.length_pos.2 hl
    simp [deleteRoute, hp]

/-- Witness for `deleteRoute_branching`: a non-array `sessionIds` (the number
3) deletes everything; the one-element array `["A"]` takes the set branch and
spares a legacy record. -/
theorem deleteRoute_branching_witness :
    (∀ l, JVal.num 3 ≠ JVal.arr l) ∧
      (deleteRoute (some (JVal.num 3)) [legacyRecord]).1 = [] ∧
      ([JVal.str "A"] : List JVal) ≠ [] ∧
      deleteRoute (some (JVal.arr [JVal.str "A"])) [legacyRecord] =
        ([legacyRecord], 0) := by
  refine ⟨fun l => by simp, ?_, by simp, ?_⟩
  · exact (deleteRoute_branching [legacyRecord]).2.2.1 (JVal.num 3)
      (fun l => by simp)
  · rw [(deleteRoute_branching [legacyRecord]).2.2.2 [JVal.str "A"]
      (by simp)]
    decide

/-!
Client-side deletion flow.  `UIState` collects the React state the claims
speak about: `selectionMode`/`selectedKeys`/`deleting` live in `Sidebar.tsx`,
`activeSession`/`historyVersion` in `page.tsx` (the `sessionId` and
`historyVersion` state).  `callDelete target ok` is the net state change of
one `callDelete(sessionIds)` call in `Sidebar.tsx` whose transport outcome is
`ok` (`res.ok` and no thrown error): on success it runs the
`onDeleteChats` callback (`handleDeleteChats` in `page.tsx`) and then exits
selection mode and clears the selection; on failure the `catch` block does
nothing.  `target = none` is the "all" sentinel (`callDelete(null)`),
`target = some ids` the explicit id list.
-/

structure UIState where
  selectionMode : Bool
  selectedKeys : List String
  deleting : Bool
  activeSession : Option String
  historyVersion : Nat
deriving DecidableEq, Repr

/-- `startNewChat` in `page.tsx` (the part acting on the modelled state):
clears the active session and bumps the history version. -/
def startNewChat (s : UIState) : UIState :=
  { s with activeSession := none, historyVersion := s.historyVersion + 1 }

/-- `handleDeleteChats(deletedSessionIds)` in `page.tsx`: bump the history
version; then, when the argument is `null` ("all deleted") or the current
session id is truthy and contained in the deleted set, start a new chat. -/
def handleDeleteChats (deleted : Option (List String)) (s : UIState) :
    UIState :=
  let s1 := { s with historyVersion := s.historyVersion + 1 }
  match deleted with
  | none => startNewChat s1
  | some ids =>
    match s.activeSession with
    | some sid => if sid ≠ "" ∧ sid ∈ ids then startNewChat s1 else s1
    | none => s1

/-- `callDelete(sessionIds)` in `Sidebar.tsx`, parameterised by the transport
outcome `ok`. -/
def callDelete (target : Option (List String)) (ok : Bool) (s : UIState) :
    UIState :=
  let s1 := { s with deleting := true }
  let s2 :=
    if ok then
      let s3 := handleDeleteChats target s1
      { s3 with selectionMode := false, selectedKeys := [] }
    else s1
  { s2 with deleting := false }

/-- Claim C4: on a successful deletion, selection mode is exited and the
selection cleared unconditionally; the active session is cleared exactly when
the target was "all" or the active session's id is in the explicit set, and
is unchanged otherwise.  (The hypothesis excludes the empty-string active
session id, which the application never produces: session ids are generated
as UUIDs or taken from truthy grouping keys.) -/
theorem callDelete_success_state (target : Option (List String)) (s : UIState)
    (hne : s.activeSession ≠ some "") :
    (callDelete target true s).selectionMode = false ∧
    (callDelete target true s).selectedKeys = [] ∧
    ((target = none ∨
        ∃ ids a, target = some ids ∧ s.activeSession = some a ∧ a ∈ ids) →
      (callDelete target true s).activeSession = none) ∧
    (¬ (target = none ∨
        ∃ ids a, target = some ids ∧ s.activeSession = some a ∧ a ∈ ids) →
      (callDelete target true s).activeSession = s.activeSession) := by
  refine ⟨rfl, rfl, ?_, ?_⟩
  · rintro (hall | ⟨ids, a, hids, hact, hmem⟩)
    · subst hall
      rfl
    · subst hids
      have ha : a ≠ "" := fun he => hne (he ▸ hact)
      simp [callDelete, handleDeleteChats, hact, ha, hmem, startNewChat]
  · intro hnot
    match htarget : target with
    | none =>
      subst htarget
      exact absurd (Or.inl rfl) hnot
    | some ids =>
      match hact : s.activeSession with
      | none => simp [callDelete, handleDeleteChats, hact]
      | some a =>
        have hnmem : ¬ (a ≠ "" ∧ a ∈ ids) := by
          intro ⟨hane, hmem⟩
          exact hnot (Or.inr ⟨ids, a, rfl, hact, hmem⟩)
        simp [callDelete, handleDeleteChats, hact, hnmem]

/-- A concrete UI state: selecting, with `"A"` selected and active. -/
def uiStateA : UIState :=
  { selectionMode := true, selectedKeys := ["A"], deleting := false,
    activeSession := some "A", historyVersion := 0 }

/-- Witness for `callDelete_success_state` at the target `{"A"}` with active
session `"A"`. -/
theorem callDelete_success_state_witness :
    uiStateA.activeSession ≠ some "" ∧
      ((callDelete (some ["A"]) true uiStateA).selectionMode = false ∧
       (callDelete (some ["A"]) true uiStateA).selectedKeys = [] ∧
       ((some ["A"] = none ∨
           ∃ ids a, (some ["A"] : Option (List String)) = some ids ∧
             uiStateA.activeSession = some a ∧ a ∈ ids) →
         (callDelete (some ["A"]) true uiStateA).activeSession = none) ∧
       (¬ (some ["A"] = none ∨
           ∃ ids a, (some ["A"] : Option (List String)) = some ids ∧
             uiStateA.activeSession = some a ∧ a ∈ ids) →
         (callDelete (some ["A"]) true uiStateA).activeSession =
           uiStateA.activeSession)) :=
  ⟨by decide, callDelete_success_state (some ["A"]) uiStateA (by decide)⟩

/-- Claim C6: when the transport call fails, `callDelete` leaves selection
mode, the selected keys, the active session and the history version exactly
as they were — no success side effect is partially applied (the `catch`
block is empty; only the transient `deleting` flag is touched). -/
theorem callDelete_failure_noop (target : Option (List String)) (s : UIState) :
    (callDelete target false s).selectionMode = s.selectionMode ∧
    (callDelete target false s).selectedKeys = s.selectedKeys ∧
    (callDelete target false s).activeSession = s.activeSession ∧
    (callDelete target false s).historyVersion = s.historyVersion :=
  ⟨rfl, rfl, rfl, rfl⟩

/-- The click events of `Sidebar.tsx` that can trigger a deletion. -/
inductive SidebarEvent where
  | clickDeleteSelected
  | clickDeleteAll
  | clickRowTrash (sid : String)
deriving DecidableEq, Repr

/-- Which store deletion (if any) a click issues, with the rendered guards of
`Sidebar.tsx`: the two bulk buttons exist only in selection mode and carry
`disabled={... || deleting}` (Delete-selected is additionally disabled for an
empty selection, and its handler re-checks `selectedKeys.size > 0`); the
per-row trash button is rendered only outside selection mode on rows with a
truthy `sessionId` and carries `disabled={deleting}`.  A disabled button
fires no click handler.  `some target` means a `callDelete(target)` call is
issued. -/
def issuedDelete (s : UIState) (e : SidebarEvent) :
    Option (Option (List String)) :=
  match e with
  | SidebarEvent.clickDeleteSelected =>
    if s.selectionMode ∧ ¬ s.deleting ∧ s.selectedKeys ≠ [] then
      some (some s.selectedKeys)
    else none
  | SidebarEvent.clickDeleteAll =>
    if s.selectionMode ∧ ¬ s.deleting then some none else none
  | SidebarEvent.clickRowTrash sid =>
    if ¬ s.selectionMode ∧ ¬ s.deleting ∧ sid ≠ "" then some (some [sid])
    else none

/-- Claim C10: while a deletion is in flight (`deleting = true`, the busy
flag), no click event can issue a second deletion call to the store. -/
theorem no_delete_while_busy (s : UIState) (e : SidebarEvent)
    (h : s.deleting = true) :
    issuedDelete s e = none := by
  cases e <;> simp [issuedDelete, h]

/-- Witness for `no_delete_while_busy`: with a deletion pending, clicking
"Delete all" issues nothing. -/
theorem no_delete_while_busy_witness :
    ({ uiStateA with deleting := true } : UIState).deleting = true ∧
      issuedDelete { uiStateA with deleting := true }
        SidebarEvent.clickDeleteAll = none :=
  ⟨rfl, no_delete_while_busy { uiStateA with deleting := true }
    SidebarEvent.clickDeleteAll rfl⟩

/-!
Search view of `Sidebar.tsx`.  `SearchState` records the search-related
component state plus the bookkeeping needed to talk about in-flight requests:
issued fetches are numbered, `inFlight` holds the outstanding (id, term)
pairs, and `applied` holds the id of the request whose response the
`searchResults` state currently shows (`none` after a clear).  Events model
the single-threaded event loop: a keystroke runs `handleSearch(value)`, the
debounce timer firing runs `runSearch(value.trim())`, and a response
completes one outstanding fetch — and the `.then` handler of `runSearch`
stores the payload into `searchResults` *unconditionally* (there is no
cancellation flag or freshness token, unlike the history-load effect). -/

/-- `String.prototype.trim` on the underlying character list: strip leading
and trailing whitespace. -/
def trimChars (l : List Char) : List Char :=
  ((l.dropWhile Char.isWhitespace).reverse.dropWhile Char.isWhitespace).reverse

/-- `String.prototype.trim` (structural model; the JS and Lean whitespace
classes agree on the ASCII whitespace appearing in search terms). -/
def jsTrim (s : String) : String :=
  String.mk (trimChars s.data)

structure SearchState where
  query : String
  pending : Option String
  nextId : Nat
  inFlight : List (Nat × String)
  applied : Option Nat
  hasSearched : Bool
  searching : Bool
deriving DecidableEq, Repr

/-- The component's initial search state. -/
def initSearchState : SearchState :=
  { query := "", pending := none, nextId := 0, inFlight := [],
    applied := none, hasSearched := false, searching := false }

inductive SearchEvent where
  | keystroke (value : String)
  | debounceFire
  | response (id : Nat)
deriving DecidableEq, Repr

/-- One event of the search view: `handleSearch` (set the query, clear any
pending timer, clear results for a blank value, else restart the 300 ms
timer); the timer firing (`runSearch(value.trim())`: mark searching, issue a
fetch); a response arriving (the `.then`/`.finally` handlers: store the
results unconditionally, stop the spinner). -/
def searchStep (s : SearchState) (e : SearchEvent) : SearchState :=
  match e with
  | SearchEvent.keystroke v =>
    let s1 := { s with query := v, pending := none }
    if jsTrim v = "" then
      { s1 with applied := none, hasSearched := false }
    else { s1 with pending := some v }
  | SearchEvent.debounceFire =>
    match s.pending with
    | none => s
    | some v =>
      { s with pending := none, searching := true, hasSearched := true,
               inFlight := s.inFlight ++ [(s.nextId, jsTrim v)],
               nextId := s.nextId + 1 }
  | SearchEvent.response id =>
    if s.inFlight.any (fun p => p.1 = id) then
      { s with inFlight := s.inFlight.filter (fun p => ¬ p.1 = id),
               applied := some id, searching := false }
    else s

/-- Run a sequence of search events from the initial state. -/
def runSearchTrace (evs : List SearchEvent) : SearchState :=
  evs.foldl searchStep initSearchState

/-- The failing interaction for claim C7: type "a", let the debounce fire
(request 0), type "ab", let the debounce fire (request 1), receive the fresh
response (request 1), then receive the stale response (request 0). -/
def staleTrace : List SearchEvent :=
  [SearchEvent.keystroke "a", SearchEvent.debounceFire,
   SearchEvent.keystroke "ab", SearchEvent.debounceFire,
   SearchEvent.response 1, SearchEvent.response 0]

/-- Claim C7 is half right and half wrong in the code.  Right: a keystroke
always clears the pending debounce timer and restarts the window (first two
conjuncts, shown on the failing trace prefix: after the second keystroke the
pending term is "ab", and request 0 for the superseded term "a" is still in
flight next to request 1 for "ab").  Wrong: a response for a superseded
request is *not* discarded — after request 1's response was applied, request
0's late response overwrites it, so the displayed results belong to the
stale request 0 while the query still reads "ab". -/
theorem search_stale_response_applied :
    (runSearchTrace (staleTrace.take 3)).pending = some "ab" ∧
    (runSearchTrace (staleTrace.take 4)).inFlight = [(0, "a"), (1, "ab")] ∧
    (runSearchTrace (staleTrace.take 5)).applied = some 1 ∧
    (runSearchTrace staleTrace).applied = some 0 ∧
    (runSearchTrace staleTrace).query = "ab" := by
  decide

/-!
The logs endpoint (`POST /api/logs`, src/unnamed/part_002).  The search
branch filters with `{$or: [{question: {$regex: term, $options: "i"}},
{answer: ...}]}`: the term is handed to MongoDB as a *regular expression*,
matched case-insensitively and unanchored.  The regex engine is external to
the repository; it is modelled here on the fragment the claims exercise:
terms consisting of ordinary characters and the `.` wildcard.  `compileTerm`
rejects (returns `none` for) terms containing any other regex metacharacter,
and `logsPOST` is correspondingly partial over terms — no claim is made
outside the fragment.  Case-insensitivity is modelled by simple
`Char.toLower` folding on both pattern and subject, which matches the `"i"`
option on the ASCII data involved. -/

inductive PChar where
  | lit (c : Char)
  | dot
deriving DecidableEq, Repr

/-- Characters with special meaning in a (PCRE-style) regular expression
other than `.` — terms containing any of these are outside the modelled
fragment.  (92, 123, 125 are backslash and the curly braces.) -/
def isRegexMeta (c : Char) : Bool :=
  c = Char.ofNat 92 ∨ c = '^' ∨ c = '$' ∨ c = '|' ∨ c = '?' ∨ c = '*' ∨
    c = '+' ∨ c = '(' ∨ c = ')' ∨ c = '[' ∨ c = ']' ∨
    c = Char.ofNat 123 ∨ c = Char.ofNat 125

def compileChar (c : Char) : Option PChar :=
  if isRegexMeta c then none
  else if c = '.' then some PChar.dot
  else some (PChar.lit c.toLower)

def compileList : List Char → Option (List PChar)
  | [] => some []
  | c :: cs =>
    match compileChar c, compileList cs with
    | some p, some ps => some (p :: ps)
    | _, _ => none

def compileTerm (t : String) : Option (List PChar) :=
  compileList t.data

/-- Anchored match of a pattern against the start of the subject,
case-folded. -/
def matchHere : List PChar → List Char → Bool
  | [], _ => true
  | _ :: _, [] => false
  | PChar.lit c :: ps, x :: xs => decide (x.toLower = c) && matchHere ps xs
  | PChar.dot :: ps, _ :: xs => matchHere ps xs

/-- Unanchored regex search (MongoDB `$regex` semantics on the fragment):
the pattern matches at some position of the subject. -/
def rxSearch (p : List PChar) : List Char → Bool
  | [] => matchHere p []
  | x :: xs => matchHere p (x :: xs) || rxSearch p xs

/-- The `$or` filter of the search branch: question or answer matches. -/
def termMatches (p : List PChar) (r : LogItem) : Bool :=
  rxSearch p r.question.data || rxSearch p r.answer.data

/-- One `$group` update of the history aggregation: raise the group's
`latestAt` maximum, or start a new group.  (MongoDB reports groups in
unspecified order before the `$sort`; first-occurrence order is fixed here,
and nothing proved below depends on the order of tied groups.) -/
def bumpGroup (sid : Option String) (c : Nat) :
    List (Option String × Nat) → List (Option String × Nat)
  | [] => [(sid, c)]
  | (k, m) :: rest =>
    if k = sid then (k, Nat.max m c) :: rest
    else (k, m) :: bumpGroup sid c rest

/-- The aggregation `[{$group: {_id: "$sessionId", latestAt: {$max:
"$createdAt"}}}]` over the store: one (sessionId, latest createdAt) pair per
distinct sessionId value, the null/missing value included. -/
def groupLatest (store : List LogItem) : List (Option String × Nat) :=
  store.foldl (fun acc r => bumpGroup r.sessionId r.createdAt acc) []

/-- The history (no-search) branch of `POST /api/logs`: keep the 50
most-recently-active session groups (`$sort {latestAt: -1}, $limit 50`),
collect their string ids, remember whether the null group survived, then
return every record whose sessionId is one of those ids — or, when the null
group survived, whose sessionId is null/missing — sorted by `createdAt`
descending. -/
def historyFetch (store : List LogItem) : List LogItem :=
  let recentSessions := (sortBy (fun a b => b.2 ≤ a.2) (groupLatest store)).take 50
  let sessionIds := recentSessions.filterMap (fun p => p.1)
  let hasNullSessions := recentSessions.any (fun p => p.1.isNone)
  sortBy (fun a b => b.createdAt ≤ a.createdAt)
    (store.filter (fun r =>
      match r.sessionId with
      | some s => sessionIds.contains s
      | none => hasNullSessions))

/-- `POST /api/logs`: a string `search` value is trimmed; a non-empty result
takes the search branch (filter by the case-insensitive regex on question or
answer, sort by `createdAt` descending, limit 200); everything else takes the
history branch.  `none` marks a term outside the modelled regex fragment. -/
def logsPOST (search : Option JVal) (store : List LogItem) :
    Option (List LogItem) :=
  let searchTerm :=
    match search with
    | some (JVal.str s) => jsTrim s
    | _ => ""
  if searchTerm = "" then some (historyFetch store)
  else
    match compileTerm searchTerm with
    | some p =>
      some ((sortBy (fun a b => b.createdAt ≤ a.createdAt)
        (store.filter (termMatches p))).take 200)
    | none => none

/-- A term character that is neither a metacharacter nor the wildcard. -/
def plainChar (c : Char) : Bool :=
  !(isRegexMeta c) && !(decide (c = '.'))

/-- A term made only of ordinary characters, on which the regex is a plain
case-insensitive substring test. -/
def plainTerm (t : String) : Bool :=
  t.data.all plainChar

/-- The lowercased character list of a string. -/
def lowerChars (s : String) : List Char :=
  s.data.map Char.toLower

/-- The claim's matching notion: the term occurs in the subject as a
case-insensitive substring. -/
def containsCI (term s : String) : Prop :=
  lowerChars term <:+: lowerChars s

instance (term s : String) : Decidable (containsCI term s) :=
  List.decidableInfix _ _

/-- The subset the claim says search returns: records whose question or
answer contains the term as a case-insensitive substring. -/
def specSearchFilter (t : String) (store : List LogItem) : List LogItem :=
  store.filter (fun r =>
    decide (containsCI t r.question) || decide (containsCI t r.answer))

theorem compileList_plain (l : List Char) (h : l.all plainChar = true) :
    compileList l = some (l.map (fun c => PChar.lit c.toLower)) := by
  induction l with
  | nil => rfl
  | cons c cs ih =>
    rw [List.all_cons, Bool.and_eq_true] at h
    have hc : plainChar c = true := h.1
    rw [plainChar, Bool.and_eq_true, Bool.not_eq_true', Bool.not_eq_true',
      decide_eq_false_iff_not] at hc
    simp [compileList, compileChar, hc.1, hc.2, ih h.2]

theorem matchHere_lits (t s : List Char) :
    matchHere (t.map (fun c => PChar.lit c.toLower)) s = true ↔
      t.map Char.toLower <+: s.map Char.toLower := by
  induction t generalizing s with
  | nil => simp [matchHere]
  | cons c cs ih =>
    cases s with
    | nil => simp [matchHere]
    | cons x xs =>
      simp only [List.map_cons, matchHere, Bool.and_eq_true,
        decide_eq_true_eq, List.cons_prefix_cons, ih]
      constructor
      · rintro ⟨h1, h2⟩
        exact ⟨h1.symm, h2⟩
      · rintro ⟨h1, h2⟩
        exact ⟨h1.symm, h2⟩

theorem rxSearch_lits (t s : List Char) :
    rxSearch (t.map (fun c => PChar.lit c.toLower)) s = true ↔
      t.map Char.toLower <:+: s.map Char.toLower := by
  induction s with
  | nil =>
    simp only [rxSearch, matchHere_lits, List.map_nil]
    constructor
    · intro h
      exact h.isInfix
    · intro h
      exact (List.infix_nil.1 h) ▸ List.prefix_refl _
  | cons x xs ih =>
    simp only [rxSearch, Bool.or_eq_true, matchHere_lits, ih, List.map_cons]
    rw [List.infix_cons_iff]

/-- A record whose question reads "axc": no occurrence of the three-character
substring "a.c", but the regex "a.c" matches it. -/
def regexCexRecord : LogItem :=
  { sessionId := some "s1", question := "axc", answer := "zzz", model := "m",
    createdAt := 3 }

/-- Counterexample to claim C8 as stated: searching for the term "a.c"
returns the record whose question is "axc" — the term is interpreted as a
regular expression, not as a literal substring, so the returned list is not
the claimed substring-match subset (which is empty here). -/
theorem search_regex_cex :
    logsPOST (some (JVal.str "a.c")) [regexCexRecord] =
        some [regexCexRecord] ∧
      specSearchFilter "a.c" [regexCexRecord] = [] := by
  decide

/-- Claim C8 (amended): for a search term free of regex metacharacters
(already trimmed, non-empty) whose substring-match subset holds at most 200
records, the search branch returns exactly the records whose question or
answer contains the term as a case-insensitive substring (as a list: that
subset sorted by `createdAt` descending), and the client feeds exactly that
returned list through the grouping engine. -/
theorem search_substring_filter (t : String) (store : List LogItem)
    (hplain : plainTerm t = true) (htrim : jsTrim t = t) (hne : t ≠ "")
    (hbound : (specSearchFilter t store).length ≤ 200) :
    ∃ l, logsPOST (some (JVal.str t)) store = some l ∧
      (∀ r, r ∈ l ↔ r ∈ store ∧
        (containsCI t r.question ∨ containsCI t r.answer)) ∧
      (logsPOST (some (JVal.str t)) store).map conversations =
        some (conversations l) := by
  have hcomp : compileTerm t =
      some (t.data.map (fun c => PChar.lit c.toLower)) :=
    compileList_plain t.data hplain
  have hfeq : store.filter
      (termMatches (t.data.map (fun c => PChar.lit c.toLower))) =
      specSearchFilter t store := by
    apply List.filter_congr
    intro r hr
    rw [termMatches]
    rw [Bool.eq_iff_iff, Bool.or_eq_true, Bool.or_eq_true]
    rw [rxSearch_lits, rxSearch_lits, decide_eq_true_eq, decide_eq_true_eq]
    rfl
  have hroute : logsPOST (some (JVal.str t)) store =
      some ((sortBy (fun a b => b.createdAt ≤ a.createdAt)
        (specSearchFilter t store)).take 200) := by
    simp only [logsPOST, htrim, hne, if_false, hcomp, hfeq]
  have htake : (sortBy (fun a b => b.createdAt ≤ a.createdAt)
      (specSearchFilter t store)).take 200 =
      sortBy (fun a b => b.createdAt ≤ a.createdAt)
        (specSearchFilter t store) :=
    List.take_of_length_le (by rw [length_sortBy]; exact hbound)
  refine ⟨_, hroute, ?_, ?_⟩
  · intro r
    rw [htake, mem_sortBy]
    simp [specSearchFilter, List.mem_filter]
  · rw [hroute]
    rfl

/-- A record whose question contains "Hi", matched case-insensitively by the
term "hi". -/
def hiRecord : LogItem :=
  { sessionId := some "s2", question := "say Hi", answer := "x", model := "m",
    createdAt := 1 }

/-- Witness for `search_substring_filter` at the term "hi" over a one-record
store. -/
theorem search_substring_filter_witness :
    plainTerm "hi" = true ∧ jsTrim "hi" = "hi" ∧ ("hi" : String) ≠ "" ∧
      (specSearchFilter "hi" [hiRecord]).length ≤ 200 ∧
      (∃ l, logsPOST (some (JVal.str "hi")) [hiRecord] = some l ∧
        (∀ r, r ∈ l ↔ r ∈ [hiRecord] ∧
          (containsCI "hi" r.question ∨ containsCI "hi" r.answer)) ∧
        (logsPOST (some (JVal.str "hi")) [hiRecord]).map conversations =
          some (conversations l)) :=
  ⟨by decide, by decide, by decide, by decide,
    search_substring_filter "hi" [hiRecord] (by decide) (by decide)
      (by decide) (by decide)⟩

theorem groupLatest_append_single (store : List LogItem) (x : LogItem) :
    groupLatest (store ++ [x]) =
      bumpGroup x.sessionId x.createdAt (groupLatest store) := by
  simp [groupLatest, List.foldl_append]

theorem mem_keys_bumpGroup (sid : Option String) (c : Nat)
    (acc : List (Option String × Nat)) (k : Option String) :
    (∃ m, (k, m) ∈ bumpGroup sid c acc) ↔ k = sid ∨ ∃ m, (k, m) ∈ acc := by
  induction acc with
  | nil => simp [bumpGroup]
  | cons p rest ih =>
    obtain ⟨k0, m0⟩ := p
    by_cases hk : k0 = sid
    · subst hk
      simp only [bumpGroup, if_true, List.mem_cons, Prod.mk.injEq]
      constructor
      · rintro ⟨m, ⟨hkk, _⟩ | hm⟩
        · exact Or.inl hkk
        · exact Or.inr ⟨m, Or.inr hm⟩
      · rintro (hkk | ⟨m, ⟨hkk, _⟩ | hm⟩)
        · exact ⟨Nat.max m0 c, Or.inl ⟨hkk, rfl⟩⟩
        · exact ⟨Nat.max m0 c, Or.inl ⟨hkk, rfl⟩⟩
        · exact ⟨m, Or.inr hm⟩
    · simp only [bumpGroup, hk, if_false, List.mem_cons, Prod.mk.injEq]
      constructor
      · rintro ⟨m, ⟨hkk, hmm⟩ | hm⟩
        · exact Or.inr ⟨m, Or.inl (by simp [hkk, hmm])⟩
        · rcases ih.1 ⟨m, hm⟩ with h | ⟨m', hm'⟩
          · exact Or.inl h
          · exact Or.inr ⟨m', Or.inr hm'⟩
      · rintro (hkk | ⟨m, ⟨hk1, _⟩ | hm⟩)
        · rcases ih.2 (Or.inl hkk) with ⟨m, hm⟩
          exact ⟨m, Or.inr hm⟩
        · exact ⟨m0, Or.inl ⟨hk1, rfl⟩⟩
        · rcases ih.2 (Or.inr ⟨m, hm⟩) with ⟨m', hm'⟩
          exact ⟨m', Or.inr hm'⟩

theorem groupLatest_keys (store : List LogItem) (k : Option String) :
    (∃ m, (k, m) ∈ groupLatest store) ↔ ∃ r ∈ store, r.sessionId = k := by
  induction store using List.reverseRecOn with
  | nil => simp [groupLatest]
  | append_singleton l x ih =>
    rw [groupLatest_append_single, mem_keys_bumpGroup, ih]
    simp only [List.mem_append, List.mem_singleton]
    constructor
    · rintro (hk | ⟨r, hr, hsid⟩)
      · exact ⟨x, Or.inr rfl, hk.symm⟩
      · exact ⟨r, Or.inl hr, hsid⟩
    · rintro ⟨r, hr | hr, hsid⟩
      · exact Or.inr ⟨r, hr, hsid⟩
      · exact Or.inl (hr ▸ hsid).symm


theorem pairwise_insertSorted_key (f : α → Nat) (x : α) (l : List α)
    (h : l.Pairwise (fun a b => f b ≤ f a)) :
    (insertSorted (fun a b => f b ≤ f a) x l).Pairwise
      (fun a b => f b ≤ f a) := by
  induction l with
  | nil => simp [insertSorted]
  | cons y ys ih =>
    rcases List.pairwise_cons.1 h with ⟨hy, hys⟩
    by_cases hle : f y ≤ f x
    · simp only [insertSorted]
      rw [if_pos (decide_eq_true hle), List.pairwise_cons]
      refine ⟨?_, h⟩
      intro z hz
      rcases List.mem_cons.1 hz with hz | hz
      · exact hz ▸ hle
      · exact Nat.le_trans (hy z hz) hle
    · simp only [insertSorted]
      rw [if_neg (by simpa using hle), List.pairwise_cons]
      refine ⟨?_, ih hys⟩
      intro z hz
      rcases (mem_insertSorted _ _ _ _).1 hz with hz | hz
      · exact hz ▸ Nat.le_of_not_le hle
      · exact hy z hz

theorem pairwise_sortBy_key (f : α → Nat) (l : List α) :
    (sortBy (fun a b => f b ≤ f a) l).Pairwise (fun a b => f b ≤ f a) := by
  induction l with
  | nil => simp [sortBy]
  | cons x xs ih => exact pairwise_insertSorted_key f x _ ih

/-- The `_id`s of the (at most 50) groups kept by the aggregation's
`$sort {latestAt: -1}` + `$limit 50`: the 50 most-recently-active groups,
the null pseudo-group included when it ranks among them. -/
def topGroupKeys (store : List LogItem) : List (Option String) :=
  ((sortBy (fun a b => b.2 ≤ a.2) (groupLatest store)).take 50).map Prod.fst

theorem filterPred_iff_topKey (store : List LogItem) (r : LogItem) :
    ((match r.sessionId with
      | some s =>
        (((sortBy (fun a b => b.2 ≤ a.2) (groupLatest store)).take 50).filterMap
          (fun p => p.1)).contains s
      | none =>
        ((sortBy (fun a b => b.2 ≤ a.2) (groupLatest store)).take 50).any
          (fun p => p.1.isNone)) = true) ↔
      r.sessionId ∈ topGroupKeys store := by
  cases hsid : r.sessionId with
  | some s =>
    simp only [topGroupKeys]
    rw [List.contains_iff_exists_mem_beq]
    constructor
    · rintro ⟨s', hs', hbeq⟩
      have hss : s = s' := by simpa using hbeq
      subst hss
      obtain ⟨p, hp, hp1⟩ := List.mem_filterMap.1 hs'
      exact List.mem_map.2 ⟨p, hp, hp1⟩
    · intro h
      obtain ⟨p, hp, hp1⟩ := List.mem_map.1 h
      exact ⟨s, List.mem_filterMap.2 ⟨p, hp, hp1⟩, by simp⟩
  | none =>
    simp only [topGroupKeys]
    rw [List.any_eq_true]
    constructor
    · rintro ⟨p, hp, hps⟩
      exact List.mem_map.2 ⟨p, hp, by simpa using hps⟩
    · intro h
      obtain ⟨p, hp, hp1⟩ := List.mem_map.1 h
      exact ⟨p, hp, by simp [hp1]⟩

/-- General membership law of the history branch: a store record is returned
precisely when its sessionId value (null for legacy records) is one of the
kept group ids — for every store, also past 50 groups. -/
theorem mem_historyFetch_iff (store : List LogItem) (r : LogItem)
    (hr : r ∈ store) :
    r ∈ historyFetch store ↔ r.sessionId ∈ topGroupKeys store := by
  simp only [historyFetch, mem_sortBy, List.mem_filter]
  rw [← filterPred_iff_topKey store r]
  simp [hr]

/-- The kept groups really are the most recently active ones: every group
cut off by the `$limit 50` has a `latestAt` no larger than that of any kept
group. -/
theorem topGroups_most_recent (store : List LogItem)
    (p q : Option String × Nat)
    (hp : p ∈ (sortBy (fun a b => b.2 ≤ a.2) (groupLatest store)).take 50)
    (hq : q ∈ (sortBy (fun a b => b.2 ≤ a.2) (groupLatest store)).drop 50) :
    q.2 ≤ p.2 := by
  have hpw := pairwise_sortBy_key (fun p : Option String × Nat => p.2)
    (groupLatest store)
  rw [← List.take_append_drop 50
    (sortBy (fun a b => b.2 ≤ a.2) (groupLatest store)),
    List.pairwise_append] at hpw
  exact hpw.2.2 p hp q hq

/-- Claim C9 (amended): with no search term, the fetch is sound (returns
only store records) and returns a record exactly when its sessionId value —
null for the sessionId-less pseudo-group — is among the ids of the at most
50 groups kept by the aggregation; those kept groups are at least as
recently active as every group cut off; when the store holds at most 50
groups, every record (sessionId-less ones included) is returned.  With a
search term, at most 200 records are returned, each from the store and
matching the term, unbounded by session. -/
theorem logs_fetch_bounds (store : List LogItem) :
    (∀ r, r ∈ historyFetch store → r ∈ store) ∧
    (∀ r, r ∈ store →
      (r ∈ historyFetch store ↔ r.sessionId ∈ topGroupKeys store)) ∧
    (topGroupKeys store).length ≤ 50 ∧
    (∀ p q, p ∈ (sortBy (fun a b => b.2 ≤ a.2) (groupLatest store)).take 50 →
      q ∈ (sortBy (fun a b => b.2 ≤ a.2) (groupLatest store)).drop 50 →
      q.2 ≤ p.2) ∧
    ((groupLatest store).length ≤ 50 →
      ∀ r, r ∈ historyFetch store ↔ r ∈ store) ∧
    (∀ (t : String) (p : List PChar) (l : List LogItem),
      jsTrim t ≠ "" → compileTerm (jsTrim t) = some p →
      logsPOST (some (JVal.str t)) store = some l →
      l.length ≤ 200 ∧ ∀ r ∈ l, r ∈ store ∧ termMatches p r = true) := by
  have hsound : ∀ r, r ∈ historyFetch store → r ∈ store := by
    intro r hr
    simp only [historyFetch, mem_sortBy, List.mem_filter] at hr
    exact hr.1
  refine ⟨hsound, mem_historyFetch_iff store, ?_, topGroups_most_recent store,
    ?_, ?_⟩
  · rw [topGroupKeys, List.length_map]
    exact List.length_take_le 50 _
  · intro hlen r
    constructor
    · exact hsound r
    · intro hr
      rw [mem_historyFetch_iff store r hr]
      have htake : (sortBy (fun a b => b.2 ≤ a.2) (groupLatest store)).take 50 =
          sortBy (fun a b => b.2 ≤ a.2) (groupLatest store) :=
        List.take_of_length_le (by rw [length_sortBy]; exact hlen)
      rw [topGroupKeys, htake]
      obtain ⟨m, hm⟩ := (groupLatest_keys store r.sessionId).2 ⟨r, hr, rfl⟩
      exact List.mem_map.2 ⟨(r.sessionId, m), (mem_sortBy _ _ _).2 hm, rfl⟩
  · intro t p l hne hcomp hpost
    simp only [logsPOST, hne, if_false, hcomp, Option.some.injEq] at hpost
    subst hpost
    constructor
    · exact List.length_take_le 200 _
    · intro r hrl
      have hr1 : r ∈ sortBy (fun a b => b.createdAt ≤ a.createdAt)
          (store.filter (termMatches p)) := List.take_subset _ _ hrl
      have hr2 : r ∈ store.filter (termMatches p) := (mem_sortBy _ _ _).1 hr1
      have := List.mem_filter.1 hr2
      exact ⟨this.1, this.2⟩

/-- A legacy record older than every session in `bigStore`. -/
def oldLegacyRecord : LogItem :=
  { sessionId := none, question := "old", answer := "ans", model := "m",
    createdAt := 1 }

/-- Fifty single-record sessions (ids are fifty distinct one-character
strings), each more recently active than `oldLegacyRecord`, plus that legacy
record. -/
def bigStore : List LogItem :=
  ((List.range 50).map (fun i =>
    { sessionId := some (String.singleton (Char.ofNat (65 + i))),
      question := "q", answer := "a", model := "m",
      createdAt := i + 2 })) ++ [oldLegacyRecord]

/-- Counterexample to claim C9 as stated: with 50 sessions all more recently
active than the sessionId-less record, the no-search fetch drops the
sessionId-less record — the null pseudo-group is ranked 51st by the
aggregation's `$limit 50`, so "plus any sessionId-less records" fails. -/
theorem history_fetch_drops_legacy :
    oldLegacyRecord ∈ bigStore ∧ oldLegacyRecord.sessionId = none ∧
      oldLegacyRecord ∉ historyFetch bigStore := by
  decide

/-- A two-record store: one session record and one legacy record. -/
def smallRecordA : LogItem :=
  { sessionId := some "A", question := "q", answer := "a", model := "m",
    createdAt := 5 }

def smallRecordLegacy : LogItem :=
  { sessionId := none, question := "q2", answer := "a2", model := "m",
    createdAt := 1 }

def smallStore : List LogItem :=
  [smallRecordA, smallRecordLegacy]

/-- Witness for `logs_fetch_bounds`: the membership law instantiated on the
51-group `bigStore` at its legacy record, the at-most-50-groups case and the
search bound on the two-record `smallStore`. -/
theorem logs_fetch_bounds_witness :
    (oldLegacyRecord ∈ bigStore ∧
      (oldLegacyRecord ∈ historyFetch bigStore ↔
        oldLegacyRecord.sessionId ∈ topGroupKeys bigStore)) ∧
    ((groupLatest smallStore).length ≤ 50 ∧
      (∀ r, r ∈ historyFetch smallStore ↔ r ∈ smallStore)) ∧
    (jsTrim "q" ≠ "" ∧
      compileTerm (jsTrim "q") = some [PChar.lit 'q'] ∧
      logsPOST (some (JVal.str "q")) smallStore =
        some [smallRecordA, smallRecordLegacy] ∧
      [smallRecordA, smallRecordLegacy].length ≤ 200 ∧
      ∀ r ∈ [smallRecordA, smallRecordLegacy],
        r ∈ smallStore ∧ termMatches [PChar.lit 'q'] r = true) :=
  ⟨⟨by decide, (logs_fetch_bounds bigStore).2.1 oldLegacyRecord (by decide)⟩,
   ⟨by decide, (logs_fetch_bounds smallStore).2.2.2.2.1 (by decide)⟩,
   by decide, by decide, by decide,
   (logs_fetch_bounds smallStore).2.2.2.2.2 "q" [PChar.lit 'q']
     [smallRecordA, smallRecordLegacy] (by decide) (by decide) (by decide)⟩
